import Mathlib

/-!
# brpc `describable.h`: `DescribeOptions`, `Describable`, `IndentingOStream`

A shallow embedding of `src/brpc/describable.h`.

* A C++ `char` is a Lean `Char`; a `std::string` is a `List Char`.
* A `std::streambuf` is seen through its public put interface (`sputc`, `sputn`):
  a record of two state-passing functions over the state type of the buffer.
  `sputc` returns the `int` of the C++ call (`EOF` on failure), `sputn` the number
  of characters it has written.
* `IndentingOStream` holds a pointer `_dest` to the destination buffer.  Here the
  state of the destination is carried inside the decorator, so the stream that a
  decorator wraps is reached (and written to directly) through `_dest`.
-/

namespace brpc

/-! ## The part of `<streambuf>` the header relies on -/

/-- The value `traits_type::eof()` of `std::char_traits<char>`. -/
def EOF : Int := -1

/-- The conversion `traits_type::to_int_type(c)`: the code of the character, never `EOF`. -/
def to_int_type (c : Char) : Int := Int.ofNat c.toNat

/-- The put interface of a `std::streambuf` whose state has type `σ`. -/
structure StreamBuf (σ : Type) where
  /-- The call `sputc(c)`: the new state and the returned `int`. -/
  sputc : σ → Char → σ × Int
  /-- The call `sputn(s, n)`: the new state and the number of characters written. -/
  sputn : σ → List Char → σ × Nat

/-- The default `std::streambuf::xsputn` of a buffer without a put area: it hands the
characters to `overflow` one by one and stops at the first `EOF`; the result counts the
characters that were accepted. -/
def xsputn {σ : Type} (overflow : σ → Char → σ × Int) : σ → List Char → σ × Nat
  | st, [] => (st, 0)
  | st, c :: cs =>
    let r := overflow st c
    if r.2 = EOF then (r.1, 0)
    else
      let r2 := xsputn overflow r.1 cs
      (r2.1, r2.2 + 1)

/-- An in-memory output buffer that accepts everything (as `std::stringbuf`): its state
is the text delivered so far. -/
def StringBuf : StreamBuf (List Char) where
  sputc := fun buf c => (buf ++ [c], to_int_type c)
  sputn := fun buf s => (buf ++ s, s.length)

/-! ## `IndentingOStream` -/

/-- The data members of `IndentingOStream`; `_dest` is the state of the buffer that the
pointer `_dest` designates. -/
structure IndentingOStream (σ : Type) where
  _dest : σ
  _is_at_start_of_line : Bool
  _indent : List Char

namespace IndentingOStream

variable {σ : Type}

/-- The constructor `IndentingOStream(dest, indent)`, for a width `indent ≥ 0`. -/
def ctor (dest : σ) (indent : Nat) : IndentingOStream σ :=
  { _dest := dest
    _is_at_start_of_line := false
    _indent := List.replicate indent ' ' }

/-- The virtual member `overflow(ch)` over a destination buffer with interface `D`. -/
def overflow (D : StreamBuf σ) (self : IndentingOStream σ) (ch : Char) :
    IndentingOStream σ × Int :=
  let d1 :=
    if self._is_at_start_of_line && ch != '\n' then (D.sputn self._dest self._indent).1
    else self._dest
  let r := D.sputc d1 ch
  ({ self with _dest := r.1, _is_at_start_of_line := (ch == '\n') }, r.2)

/-- The put interface an `IndentingOStream` inherits from `std::streambuf`: it has no put
area, so `sputc` is `overflow` and `sputn` is the default `xsputn`. -/
def rdbuf (D : StreamBuf σ) : StreamBuf (IndentingOStream σ) where
  sputc := overflow D
  sputn := xsputn (overflow D)

/-- A sequence of `WriteChar` calls: the characters of `s` go through `overflow` one by
one, in order. -/
def writeChars (D : StreamBuf σ) (self : IndentingOStream σ) (s : List Char) :
    IndentingOStream σ :=
  s.foldl (fun st c => (overflow D st c).1) self

end IndentingOStream

/-- The state of `k` decorators chained over a destination with state `σ`: the outermost
record is the decorator written to, each `_dest` is the decorator (or destination) it
wraps. -/
def Chain (σ : Type) : Nat → Type
  | 0 => σ
  | k + 1 => IndentingOStream (Chain σ k)

/-- The put interface of a chain of `k` decorators over the destination `D`. -/
def chainBuf {σ : Type} (D : StreamBuf σ) : (k : Nat) → StreamBuf (Chain σ k)
  | 0 => D
  | k + 1 => IndentingOStream.rdbuf (chainBuf D k)

/-! ## The text the specification describes -/

/-- One line after the first: `n` spaces in front when it is not empty. -/
def indentLine (n : Nat) (li : List Char) : List Char :=
  if li = [] then li else List.replicate n ' ' ++ li

/-- The text of the specification: split at every newline, keep the first line, indent
each later non-empty line by `n` spaces, join with newlines. -/
def indentedText (n : Nat) (s : List Char) : List Char :=
  match s.splitOn '\n' with
  | [] => []
  | l0 :: ls => ['\n'].intercalate (l0 :: ls.map (indentLine n))

/-! ## A destination whose writes can fail -/

/-- A destination buffer with transient faults: `script` lists the outcomes of the coming
`sputc` attempts (`false`: the attempt is refused with `EOF`); once the script is used up
every character is accepted.  `out` is the text delivered so far. -/
structure ScriptedBuf where
  out : List Char
  script : List Bool

/-- The call `sputc(c)` on a `ScriptedBuf`. -/
def ScriptedBuf.sputc (b : ScriptedBuf) (c : Char) : ScriptedBuf × Int :=
  match b.script with
  | false :: rest => ({ b with script := rest }, EOF)
  | true :: rest => ({ out := b.out ++ [c], script := rest }, to_int_type c)
  | [] => ({ b with out := b.out ++ [c] }, to_int_type c)

/-- The put interface of a `ScriptedBuf`; its `sputn` is the default `xsputn`. -/
def ScriptedBuf.rdbuf : StreamBuf ScriptedBuf where
  sputc := ScriptedBuf.sputc
  sputn := xsputn ScriptedBuf.sputc

/-! ## `DescribeOptions`, `Describable`, `NonConstDescribable` -/

/-- The struct `DescribeOptions`. -/
structure DescribeOptions where
  verbose : Bool
  use_html : Bool
  deriving DecidableEq, Repr

/-- The default constructor `DescribeOptions()`. -/
def DescribeOptions.ctor : DescribeOptions :=
  { verbose := true, use_html := false }

/-- A class derived from `Describable`, as its virtual member `Describe`: `Obj` is the
state of the object, `σ` the state of the `std::ostream`.  The member is `const`: it
returns the stream only. -/
structure Describable (Obj σ : Type) where
  Describe : Obj → σ → DescribeOptions → σ

/-- A class derived from `NonConstDescribable`, as its virtual member `Describe`, which
may change the object as well as the stream. -/
structure NonConstDescribable (Obj σ : Type) where
  Describe : Obj → σ → DescribeOptions → Obj × σ

/-- The inserter `operator<<(std::ostream& os, const Describable& obj)`; the result is
the stream `os` it returns. -/
def Describable.operator_shl {Obj σ : Type} (cls : Describable Obj σ) (os : σ) (obj : Obj) :
    σ :=
  let options := DescribeOptions.ctor
  let options := { options with verbose := false }
  let os := cls.Describe obj os options
  os

/-- The inserter `operator<<(std::ostream& os, NonConstDescribable& obj)`; the result is
the object after the call and the stream `os` it returns. -/
def NonConstDescribable.operator_shl {Obj σ : Type} (cls : NonConstDescribable Obj σ)
    (os : σ) (obj : Obj) : Obj × σ :=
  let options := DescribeOptions.ctor
  let options := { options with verbose := false }
  let r := cls.Describe obj os options
  r

/-- The body of `Describable::Describe`, which a class that does not override it
inherits: `os << base::class_name_str(*this)`.  The helper `class_name_str` (declared in
`base/class_name.h`) and the inserter of a `std::string` into the stream are parameters. -/
def Describable.base {Obj σ : Type} (insert : σ → List Char → σ)
    (class_name_str : Obj → List Char) : Describable Obj σ where
  Describe := fun obj os _ => insert os (class_name_str obj)

/-- The body of `NonConstDescribable::Describe`: the same statement; the object is left
as it is. -/
def NonConstDescribable.base {Obj σ : Type} (insert : σ → List Char → σ)
    (class_name_str : Obj → List Char) : NonConstDescribable Obj σ where
  Describe := fun obj os _ => (obj, insert os (class_name_str obj))

/-! ## Formatted insertion of a string -/

/-- The part of the state of a `std::ostream` that the insertion of a string reads and
writes: the state of its stream buffer, whether `good()` holds, the field width, the fill
character, and whether the adjustment field is `left`. -/
structure OStream (σ : Type) where
  rdbuf : σ
  good : Bool
  width : Nat
  fill : Char
  left : Bool

/-- The inserter `operator<<(std::ostream&, const std::string&)` of the standard library,
a formatted output function.  On a stream that is not good it writes nothing.  Otherwise
the string is padded with the fill character up to the field width (behind the string
when the adjustment is `left`, in front of it otherwise), the padded sequence goes to
`sputn` of the stream buffer `D`, a short count leaves the stream not good, and the width
is reset to 0. -/
def OStream.insert {σ : Type} (D : StreamBuf σ) (os : OStream σ) (str : List Char) :
    OStream σ :=
  if os.good then
    let pad := List.replicate (os.width - str.length) os.fill
    let seq := if os.left then str ++ pad else pad ++ str
    let r := D.sputn os.rdbuf seq
    { os with rdbuf := r.1, good := (r.2 == seq.length), width := 0 }
  else os

/-! ## Chains of fresh decorators -/

/-- The chain of `k` freshly constructed decorators over the destination `dest`: the
decorator `D(i+1)` wraps `Di` (and `D1` wraps `dest`) and has width `w i`. -/
def freshChain {σ : Type} (dest : σ) (w : Nat → Nat) : (k : Nat) → Chain σ k
  | 0 => dest
  | k + 1 => IndentingOStream.ctor (freshChain dest w k) (w k)

/-- The chain of `k` decorators of widths `w 0`, ..., `w (k - 1)` whose line-start flags
all equal `b`, over a base buffer holding `buf`. -/
def syncChain (w : Nat → Nat) (buf : List Char) (b : Bool) : (k : Nat) → Chain (List Char) k
  | 0 => buf
  | k + 1 =>
    ({ _dest := syncChain w buf b k
       _is_at_start_of_line := b
       _indent := List.replicate (w k) ' ' } : IndentingOStream (Chain (List Char) k))

/-- The state of the base destination under a chain of `k` decorators. -/
def chainBase {σ : Type} : (k : Nat) → Chain σ k → σ
  | 0, d => d
  | k + 1, st => chainBase k (st : IndentingOStream (Chain σ k))._dest

/-- The line-start flags of the `k` decorators of a chain, outermost first. -/
def chainFlags {σ : Type} : (k : Nat) → Chain σ k → List Bool
  | 0, _ => []
  | k + 1, st =>
    (st : IndentingOStream (Chain σ k))._is_at_start_of_line
      :: chainFlags k (st : IndentingOStream (Chain σ k))._dest

/-! ## Properties of the delivered text -/

/-- The text that a decorator with indent `ind` and line-start flag `b` delivers for `s`
to an accepting sink that is empty at the start. -/
def delivered (ind : List Char) (b : Bool) (s : List Char) : List Char :=
  (IndentingOStream.writeChars StringBuf ⟨[], b, ind⟩ s)._dest

/-- Whether every newline of the text that is followed by a character other than a newline
is followed by `n` spaces. -/
def newlinesIndented (n : Nat) : List Char → Bool
  | [] => true
  | c :: rest =>
    (c != '\n' || rest.isEmpty || rest.head? == some '\n'
        || rest.take n == List.replicate n ' ')
      && newlinesIndented n rest

/-- Whether the text starts with a character other than a newline. -/
def startsLine : List Char → Bool
  | [] => false
  | d :: _ => d != '\n'

/-- The inverse reading of an indented text: `skip` characters are still to be deleted;
after a newline that is followed by a character other than a newline the next `n`
characters are deleted. -/
def unindentAux (n : Nat) : Nat → List Char → List Char
  | _, [] => []
  | skip + 1, _ :: rest => unindentAux n skip rest
  | 0, c :: rest =>
    if c = '\n' then c :: unindentAux n (if startsLine rest then n else 0) rest
    else c :: unindentAux n 0 rest

/-- Delete the `n` characters that follow each newline which is not itself followed by a
newline or by the end of the text. -/
def unindent (n : Nat) (out : List Char) : List Char := unindentAux n 0 out

/-- The number of positions `i` with `s[i]` a newline, `i + 1 < |s|` and `s[i+1]` not a
newline. -/
def indentPoints (s : List Char) : Nat :=
  (List.range s.length).countP
    (fun i => s[i]? == some '\n' && decide (i + 1 < s.length) && s[i + 1]? != some '\n')

/-! ## Lemmas on the stream buffer model -/

open IndentingOStream

theorem to_int_type_ne_EOF (c : Char) : to_int_type c ≠ EOF := by
  have h : (0 : Int) ≤ Int.ofNat c.toNat := Int.ofNat_nonneg _
  unfold to_int_type EOF
  omega

theorem intercalate_append_head {α : Type} (sep a l : List α) (rest : List (List α)) :
    sep.intercalate ((a ++ l) :: rest) = a ++ sep.intercalate (l :: rest) := by
  cases rest <;> simp [List.intercalate]

theorem intercalate_nil_head {α : Type} (sep : List α) (l : List α) (rest : List (List α)) :
    sep.intercalate ([] :: l :: rest) = sep ++ sep.intercalate (l :: rest) := by
  simp [List.intercalate]

theorem splitOn_newline_cons (cs : List Char) :
    ('\n' :: cs).splitOn '\n' = [] :: cs.splitOn '\n' := by
  simp [List.splitOn]

theorem splitOn_other_cons (c : Char) (cs : List Char) (h : c ≠ '\n') :
    (c :: cs).splitOn '\n' = (cs.splitOn '\n').modifyHead (List.cons c) := by
  simp [List.splitOn, h]

theorem splitOn_ne_nil (cs : List Char) : cs.splitOn '\n' ≠ [] :=
  List.splitOnP_ne_nil _ _

namespace IndentingOStream

theorem overflow_StringBuf (buf ind : List Char) (b : Bool) (c : Char) :
    overflow StringBuf ⟨buf, b, ind⟩ c
      = (⟨buf ++ (if b && c != '\n' then ind else []) ++ [c], c == '\n', ind⟩,
          to_int_type c) := by
  unfold overflow StringBuf
  by_cases h : (b && c != '\n') = true <;> simp [h]

theorem ext_fields {σ : Type} (x y : IndentingOStream σ) (h1 : x._dest = y._dest)
    (h2 : x._is_at_start_of_line = y._is_at_start_of_line) (h3 : x._indent = y._indent) :
    x = y := by
  cases x; cases y; simp_all

theorem writeChars_nil {σ : Type} (D : StreamBuf σ) (st : IndentingOStream σ) :
    writeChars D st [] = st := rfl

theorem writeChars_cons {σ : Type} (D : StreamBuf σ) (st : IndentingOStream σ) (c : Char)
    (cs : List Char) : writeChars D st (c :: cs) = writeChars D (overflow D st c).1 cs := rfl

theorem writeChars_append {σ : Type} (D : StreamBuf σ) (st : IndentingOStream σ)
    (s t : List Char) : writeChars D st (s ++ t) = writeChars D (writeChars D st s) t := by
  simp [writeChars, List.foldl_append]

theorem indentedText_newline_cons (n : Nat) (cs : List Char) :
    indentedText n ('\n' :: cs)
      = '\n' :: ['\n'].intercalate ((cs.splitOn '\n').map (indentLine n)) := by
  obtain ⟨l0, ls, hl⟩ := List.exists_cons_of_ne_nil (splitOn_ne_nil cs)
  simp [indentedText, splitOn_newline_cons, hl, intercalate_nil_head]

theorem indentedText_other_cons (n : Nat) (c : Char) (cs : List Char) (h : c ≠ '\n') :
    indentedText n (c :: cs) = c :: indentedText n cs := by
  obtain ⟨l0, ls, hl⟩ := List.exists_cons_of_ne_nil (splitOn_ne_nil cs)
  have := intercalate_append_head ['\n'] [c] l0 (ls.map (indentLine n))
  simpa [indentedText, splitOn_other_cons c cs h, hl] using this

theorem indentAll_newline_cons (n : Nat) (cs : List Char) :
    ['\n'].intercalate ((('\n' :: cs).splitOn '\n').map (indentLine n))
      = '\n' :: ['\n'].intercalate ((cs.splitOn '\n').map (indentLine n)) := by
  obtain ⟨l0, ls, hl⟩ := List.exists_cons_of_ne_nil (splitOn_ne_nil cs)
  simp [splitOn_newline_cons, hl, intercalate_nil_head, indentLine]

theorem indentAll_other_cons (n : Nat) (c : Char) (cs : List Char) (h : c ≠ '\n') :
    ['\n'].intercalate (((c :: cs).splitOn '\n').map (indentLine n))
      = List.replicate n ' ' ++ c :: indentedText n cs := by
  obtain ⟨l0, ls, hl⟩ := List.exists_cons_of_ne_nil (splitOn_ne_nil cs)
  have := intercalate_append_head ['\n'] (List.replicate n ' ' ++ [c]) l0
    (ls.map (indentLine n))
  simpa [indentedText, splitOn_other_cons c cs h, hl, indentLine] using this

theorem writeChars_StringBuf_dest (n : Nat) (s : List Char) :
    ∀ buf : List Char,
      (writeChars StringBuf ⟨buf, false, List.replicate n ' '⟩ s)._dest
          = buf ++ indentedText n s ∧
      (writeChars StringBuf ⟨buf, true, List.replicate n ' '⟩ s)._dest
          = buf ++ ['\n'].intercalate ((s.splitOn '\n').map (indentLine n)) := by
  induction s with
  | nil => intro buf; simp [writeChars, indentedText, indentLine, List.intercalate]
  | cons c cs ih =>
    intro buf
    by_cases hc : c = '\n'
    · subst hc
      rw [writeChars_cons, writeChars_cons, overflow_StringBuf, overflow_StringBuf,
        indentedText_newline_cons, indentAll_newline_cons]
      simp [(ih _).2]
    · rw [writeChars_cons, writeChars_cons, overflow_StringBuf, overflow_StringBuf,
        indentedText_other_cons n c cs hc, indentAll_other_cons n c cs hc]
      have hb : (c == '\n') = false := by simpa using hc
      simp [(ih _).1, hc, hb]

theorem writeChars_indent {σ : Type} (D : StreamBuf σ) (st : IndentingOStream σ)
    (s : List Char) : (writeChars D st s)._indent = st._indent := by
  induction s generalizing st with
  | nil => rfl
  | cons c cs ih => rw [writeChars_cons, ih]; rfl

theorem writeChars_flag {σ : Type} (D : StreamBuf σ) (st : IndentingOStream σ)
    (s : List Char) :
    (writeChars D st s)._is_at_start_of_line
      = if s = [] then st._is_at_start_of_line else (s.getLast? == some '\n') := by
  induction s generalizing st with
  | nil => rfl
  | cons c cs ih =>
    rw [writeChars_cons, ih]
    cases cs with
    | nil => simp [overflow]
    | cons d ds => simp [List.getLast?_cons_cons]

theorem xsputn_StringBuf (st : IndentingOStream (List Char)) (s : List Char) :
    xsputn (overflow StringBuf) st s = (writeChars StringBuf st s, s.length) := by
  induction s generalizing st with
  | nil => rfl
  | cons c cs ih =>
    obtain ⟨buf, b, ind⟩ := st
    rw [xsputn, writeChars_cons, overflow_StringBuf]
    simp [to_int_type_ne_EOF, ih]

theorem writeChars_StringBuf_spaces (buf ind : List Char) (b : Bool) (k : Nat) :
    writeChars StringBuf ⟨buf, b, ind⟩ (List.replicate k ' ')
      = if k = 0 then ⟨buf, b, ind⟩
        else ⟨buf ++ (if b then ind else []) ++ List.replicate k ' ', false, ind⟩ := by
  induction k generalizing buf b with
  | zero => rfl
  | succ k ih =>
    rw [List.replicate_succ, writeChars_cons, overflow_StringBuf, ih]
    by_cases hk : k = 0
    · subst hk; cases b <;> simp
    · cases b <;> simp [hk]

theorem overflow_rdbuf {σ : Type} (D : StreamBuf σ)
    (B : IndentingOStream (IndentingOStream σ)) (c : Char) :
    overflow (rdbuf D) B c
      = ({ B with
            _dest := (overflow D
              (if B._is_at_start_of_line && c != '\n' then
                (xsputn (overflow D) B._dest B._indent).1 else B._dest) c).1
            _is_at_start_of_line := (c == '\n') },
          (overflow D
              (if B._is_at_start_of_line && c != '\n' then
                (xsputn (overflow D) B._dest B._indent).1 else B._dest) c).2) := rfl

/-- One `overflow` of a decorator `B` (width `u2`) over a decorator `A` (width `u1`) whose
line-start flags agree acts on the base buffer as one `overflow` of a decorator of width
`u1 + u2`, and leaves the flags in agreement. -/
theorem overflow_nested (buf : List Char) (b : Bool) (u1 u2 : Nat) (c : Char) :
    overflow (rdbuf StringBuf) ⟨⟨buf, b, List.replicate u1 ' '⟩, b, List.replicate u2 ' '⟩ c
      = (⟨⟨(overflow StringBuf ⟨buf, b, List.replicate (u1 + u2) ' '⟩ c).1._dest,
            c == '\n', List.replicate u1 ' '⟩, c == '\n', List.replicate u2 ' '⟩,
          to_int_type c) := by
  rw [overflow_rdbuf]
  simp only [xsputn_StringBuf, writeChars_StringBuf_spaces]
  by_cases hc : c = '\n'
  · subst hc
    simp [overflow_StringBuf]
  · have hb : (c != '\n') = true := by simpa using hc
    cases b
    · simp [overflow_StringBuf]
    · by_cases hk : u2 = 0
      · subst hk
        simp [overflow_StringBuf, hb]
      · simp only [hb, hk, Bool.and_self, if_true, if_false, overflow_StringBuf]
        rw [List.replicate_add]
        simp

theorem writeChars_nested (u1 u2 : Nat) (s : List Char) :
    ∀ (buf : List Char) (b : Bool),
      writeChars (rdbuf StringBuf)
          ⟨⟨buf, b, List.replicate u1 ' '⟩, b, List.replicate u2 ' '⟩ s
        = ⟨⟨(writeChars StringBuf ⟨buf, b, List.replicate (u1 + u2) ' '⟩ s)._dest,
              (writeChars StringBuf
                ⟨buf, b, List.replicate (u1 + u2) ' '⟩ s)._is_at_start_of_line,
              List.replicate u1 ' '⟩,
            (writeChars StringBuf
              ⟨buf, b, List.replicate (u1 + u2) ' '⟩ s)._is_at_start_of_line,
            List.replicate u2 ' '⟩ := by
  induction s with
  | nil => intro buf b; rfl
  | cons c cs ih =>
    intro buf b
    rw [writeChars_cons, overflow_nested, writeChars_cons, overflow_StringBuf]
    exact ih _ _

theorem writeChars_StringBuf_line (buf ind s : List Char) (b : Bool)
    (hs : '\n' ∉ s) (hne : s ≠ []) :
    writeChars StringBuf ⟨buf, b, ind⟩ s
      = ⟨buf ++ (if b then ind else []) ++ s, false, ind⟩ := by
  induction s generalizing buf b with
  | nil => exact absurd rfl hne
  | cons c cs ih =>
    have hc : c ≠ '\n' := fun h => hs (h ▸ List.mem_cons_self _ _)
    have hcs : '\n' ∉ cs := fun h => hs (List.mem_cons_of_mem _ h)
    have hb : (c == '\n') = false := by simpa using hc
    rw [writeChars_cons, overflow_StringBuf, hb]
    cases cs with
    | nil => cases b <;> simp [writeChars_nil, hc]
    | cons d ds =>
      rw [ih _ _ hcs (List.cons_ne_nil _ _)]
      cases b <;> simp [hc]

theorem writeChars_StringBuf_first_line (buf ind s : List Char) (hs : '\n' ∉ s) :
    writeChars StringBuf ⟨buf, false, ind⟩ s = ⟨buf ++ s, false, ind⟩ := by
  cases s with
  | nil => simp [writeChars_nil]
  | cons c cs => simpa using writeChars_StringBuf_line buf ind (c :: cs) false hs (by simp)

theorem writeChars_StringBuf_newline (buf ind : List Char) (b : Bool) :
    writeChars StringBuf ⟨buf, b, ind⟩ ['\n'] = ⟨buf ++ ['\n'], true, ind⟩ := by
  rw [writeChars_cons, overflow_StringBuf, writeChars_nil]
  simp

theorem xsputn_length {σ : Type} (f : σ → Char → σ × Int)
    (hf : ∀ d c, (f d c).2 ≠ EOF) (st : σ) (s : List Char) :
    (xsputn f st s).2 = s.length := by
  induction s generalizing st with
  | nil => rfl
  | cons c cs ih => simp [xsputn, hf, ih]

theorem chainBuf_sputc_ne_EOF {σ : Type} (D : StreamBuf σ)
    (hD : ∀ d c, (D.sputc d c).2 ≠ EOF) (k : Nat) :
    ∀ (d : Chain σ k) (c : Char), ((chainBuf D k).sputc d c).2 ≠ EOF := by
  induction k with
  | zero => exact hD
  | succ k ih => intro d c; exact ih _ c

end IndentingOStream

/-! ## Lemmas on the delivered text -/

theorem writeChars_StringBuf_onto (ind s : List Char) :
    ∀ (buf : List Char) (b : Bool),
      (writeChars StringBuf ⟨buf, b, ind⟩ s)._dest = buf ++ delivered ind b s := by
  induction s with
  | nil => intro buf b; simp [delivered, writeChars_nil]
  | cons c cs ih =>
    intro buf b
    unfold delivered
    simp only [writeChars_cons, overflow_StringBuf]
    rw [ih, ih]
    simp

theorem delivered_nil (ind : List Char) (b : Bool) : delivered ind b [] = [] := rfl

theorem delivered_cons (ind : List Char) (b : Bool) (c : Char) (cs : List Char) :
    delivered ind b (c :: cs)
      = (if b && c != '\n' then ind else []) ++ c :: delivered ind (c == '\n') cs := by
  unfold delivered
  simp only [writeChars_cons, overflow_StringBuf]
  rw [writeChars_StringBuf_onto]
  simp [delivered]

theorem delivered_newline_cons (ind : List Char) (b : Bool) (cs : List Char) :
    delivered ind b ('\n' :: cs) = '\n' :: delivered ind true cs := by
  rw [delivered_cons]; simp

theorem delivered_other_cons_mid (ind : List Char) (c : Char) (cs : List Char)
    (h : c ≠ '\n') : delivered ind false (c :: cs) = c :: delivered ind false cs := by
  have hb : (c == '\n') = false := by simpa using h
  rw [delivered_cons, hb]; simp

theorem delivered_other_cons_start (ind : List Char) (c : Char) (cs : List Char)
    (h : c ≠ '\n') : delivered ind true (c :: cs) = ind ++ c :: delivered ind false cs := by
  have hb : (c == '\n') = false := by simpa using h
  rw [delivered_cons, hb]; simp [h]

theorem delivered_fresh (n : Nat) (s : List Char) :
    (writeChars StringBuf (ctor [] n) s)._dest = delivered (List.replicate n ' ') false s :=
  rfl

theorem newlinesIndented_spaces (n k : Nat) (t : List Char) :
    newlinesIndented n (List.replicate k ' ' ++ t) = newlinesIndented n t := by
  induction k with
  | zero => simp
  | succ k ih =>
    rw [List.replicate_succ, List.cons_append, newlinesIndented, ih]
    simp

theorem delivered_start_head (n : Nat) (s : List Char) :
    (delivered (List.replicate n ' ') true s).isEmpty = true
      ∨ (delivered (List.replicate n ' ') true s).head? = some '\n'
      ∨ (delivered (List.replicate n ' ') true s).take n = List.replicate n ' ' := by
  cases s with
  | nil => left; rfl
  | cons c cs =>
    by_cases hc : c = '\n'
    · subst hc
      right; left
      rw [delivered_newline_cons]; rfl
    · right; right
      rw [delivered_other_cons_start _ c cs hc]
      exact List.take_left' (List.length_replicate _ _)

theorem newlinesIndented_delivered (n : Nat) (s : List Char) :
    ∀ b : Bool, newlinesIndented n (delivered (List.replicate n ' ') b s) = true := by
  induction s with
  | nil => intro b; rfl
  | cons c cs ih =>
    intro b
    by_cases hc : c = '\n'
    · subst hc
      rw [delivered_newline_cons, newlinesIndented, ih true]
      rcases delivered_start_head n cs with h | h | h <;> simp [h]
    · cases b
      · rw [delivered_other_cons_mid _ c cs hc, newlinesIndented, ih false]
        simp [hc]
      · rw [delivered_other_cons_start _ c cs hc, newlinesIndented_spaces, newlinesIndented,
          ih false]
        simp [hc]

theorem newlinesIndented_index (n : Nat) (out : List Char)
    (h : newlinesIndented n out = true) :
    ∀ i : Nat, out[i]? = some '\n' → (∃ c, out[i + 1]? = some c ∧ c ≠ '\n') →
      (out.drop (i + 1)).take n = List.replicate n ' ' := by
  induction out with
  | nil => intro i hi; simp at hi
  | cons c rest ih =>
    rw [newlinesIndented, Bool.and_eq_true] at h
    intro i hi hnext
    cases i with
    | zero =>
      obtain ⟨d, hd, hdn⟩ := hnext
      have hc : c = '\n' := by simpa using hi
      cases rest with
      | nil => simp at hd
      | cons e es =>
        have he : e = d := by simpa using hd
        subst he
        have h1 := h.1
        simp [hc, hdn] at h1
        simpa using h1
    | succ j =>
      have := ih h.2 j (by simpa using hi) (by simpa using hnext)
      simpa using this

theorem unindentAux_skip (n k : Nat) (t : List Char) :
    unindentAux n k (List.replicate k ' ' ++ t) = unindentAux n 0 t := by
  induction k with
  | zero => simp
  | succ k ih => rw [List.replicate_succ, List.cons_append, unindentAux, ih]

theorem startsLine_indent (n : Nat) (c : Char) (t : List Char) (hc : c ≠ '\n') :
    startsLine (List.replicate n ' ' ++ c :: t) = true := by
  cases n with
  | zero => simpa [startsLine] using hc
  | succ m => simp [startsLine, List.replicate_succ]

theorem unindentAux_newline_indent (n : Nat) (c : Char) (t : List Char) (hc : c ≠ '\n') :
    unindentAux n 0 ('\n' :: (List.replicate n ' ' ++ c :: t))
      = '\n' :: unindentAux n 0 (c :: t) := by
  rw [unindentAux, if_pos rfl, startsLine_indent n c t hc, if_pos rfl, unindentAux_skip]

theorem unindentAux_delivered (n : Nat) (s : List Char) :
    unindentAux n 0 (delivered (List.replicate n ' ') false s) = s
      ∧ unindentAux n 0 ('\n' :: delivered (List.replicate n ' ') true s) = '\n' :: s := by
  induction s with
  | nil => constructor <;> simp [delivered_nil, unindentAux]
  | cons c cs ih =>
    by_cases hc : c = '\n'
    · subst hc
      rw [delivered_newline_cons, delivered_newline_cons]
      refine ⟨ih.2, ?_⟩
      have h2 : unindentAux n 0 ('\n' :: '\n' :: delivered (List.replicate n ' ') true cs)
          = '\n' :: unindentAux n 0 ('\n' :: delivered (List.replicate n ' ') true cs) := by
        rw [unindentAux, if_pos rfl]
        simp [startsLine]
      rw [h2, ih.2]
    · rw [delivered_other_cons_mid _ c cs hc, delivered_other_cons_start _ c cs hc,
        unindentAux_newline_indent n c _ hc]
      have h1 : unindentAux n 0 (c :: delivered (List.replicate n ' ') false cs) = c :: cs := by
        rw [unindentAux, if_neg hc, ih.1]
      exact ⟨h1, by rw [h1]⟩

theorem indentPoints_cons (c : Char) (t : List Char) :
    indentPoints (c :: t) = (if c = '\n' ∧ startsLine t = true then 1 else 0) + indentPoints t := by
  unfold indentPoints
  rw [List.length_cons, List.range_succ_eq_map, List.countP_cons, List.countP_map, Nat.add_comm]
  congr 1
  · cases t with
    | nil => simp [startsLine]
    | cons d ds =>
      by_cases hc : c = '\n' <;> by_cases hd : d = '\n' <;> simp [startsLine, hc, hd]
  · congr 1
    funext i
    simp [Function.comp]

theorem delivered_length (n : Nat) (s : List Char) :
    ∀ b : Bool,
      (delivered (List.replicate n ' ') b s).length
        = s.length + n * indentPoints s + (if b && startsLine s then n else 0) := by
  induction s with
  | nil => intro b; simp [delivered_nil, indentPoints, startsLine]
  | cons c cs ih =>
    intro b
    by_cases hc : c = '\n'
    · subst hc
      have h0 : startsLine ('\n' :: cs) = false := rfl
      rw [delivered_newline_cons, List.length_cons, ih true, indentPoints_cons, h0]
      by_cases hs : startsLine cs = true
      · simp [hs, Nat.mul_add]; omega
      · simp [hs]; omega
    · have h0 : startsLine (c :: cs) = true := by simpa [startsLine] using hc
      cases b
      · rw [delivered_other_cons_mid _ c cs hc, List.length_cons, ih false, indentPoints_cons]
        simp [hc]; omega
      · rw [delivered_other_cons_start _ c cs hc, List.length_append, List.length_cons,
          ih false, indentPoints_cons, h0]
        simp [hc]; omega

theorem delivered_count_newline (ind : List Char) (hind : '\n' ∉ ind) (s : List Char) :
    ∀ b : Bool, (delivered ind b s).count '\n' = s.count '\n' := by
  induction s with
  | nil => intro b; simp [delivered_nil]
  | cons c cs ih =>
    intro b
    rw [delivered_cons, List.count_append, List.count_cons, List.count_cons, ih]
    by_cases h : (b && c != '\n') = true
    · simp [h, List.count_eq_zero.mpr hind]
    · simp [h]

theorem delivered_no_indent (s : List Char) : ∀ b : Bool, delivered [] b s = s := by
  induction s with
  | nil => intro b; rfl
  | cons c cs ih => intro b; rw [delivered_cons, ih]; simp

theorem sublist_delivered (ind s : List Char) : ∀ b : Bool, s.Sublist (delivered ind b s) := by
  induction s with
  | nil => intro b; simp
  | cons c cs ih =>
    intro b
    rw [delivered_cons]
    exact ((ih _).cons₂ c).trans (List.sublist_append_right _ _)

theorem delivered_filter_spaces (n : Nat) (s : List Char) :
    ∀ b : Bool,
      (delivered (List.replicate n ' ') b s).filter (fun c => c != ' ')
        = s.filter (fun c => c != ' ') := by
  induction s with
  | nil => intro b; simp [delivered_nil]
  | cons c cs ih =>
    intro b
    have hsp : (List.replicate n ' ').filter (fun c => c != ' ') = [] := by
      simp [List.filter_eq_nil_iff]
    rw [delivered_cons, List.filter_append, List.filter_cons, List.filter_cons, ih]
    by_cases h : (b && c != '\n') = true
    · simp [h, hsp]
    · simp [h]

/-! ## Lemmas on chains of decorators -/

theorem sum_widths_succ (w : Nat → Nat) (k : Nat) :
    ((List.range (k + 1)).map w).sum = ((List.range k).map w).sum + w k := by
  simp [List.range_succ]

/-- When `f` acts on the states `emb buf b` as the `overflow` of one decorator of width
`m` over an accepting buffer, the default `xsputn` of `k` spaces acts accordingly. -/
theorem xsputn_spaces_sim {τ : Type} (f : τ → Char → τ × Int) (emb : List Char → Bool → τ)
    (m : Nat)
    (hc : ∀ buf b c, f (emb buf b) c
      = (emb (buf ++ (if b && c != '\n' then List.replicate m ' ' else []) ++ [c])
          (c == '\n'), to_int_type c))
    (k : Nat) :
    ∀ (buf : List Char) (b : Bool),
      (xsputn f (emb buf b) (List.replicate k ' ')).1
        = if k = 0 then emb buf b
          else emb (buf ++ (if b then List.replicate m ' ' else []) ++ List.replicate k ' ')
            false := by
  induction k with
  | zero => intro buf b; rfl
  | succ k ih =>
    intro buf b
    have hne : (f (emb buf b) ' ').2 ≠ EOF := by rw [hc]; exact to_int_type_ne_EOF _
    rw [List.replicate_succ, xsputn]
    simp only [hne, if_false]
    rw [hc, ih]
    by_cases hk : k = 0
    · subst hk; cases b <;> simp
    · cases b <;> simp [hk]

/-- One more decorator of width `w` on top of a buffer that behaves as a decorator of
width `m`: its `overflow` behaves as the `overflow` of a decorator of width `m + w`. -/
theorem overflow_lift_sim {τ : Type} (D : StreamBuf τ) (emb : List Char → Bool → τ)
    (m w : Nat)
    (hc : ∀ buf b c, D.sputc (emb buf b) c
      = (emb (buf ++ (if b && c != '\n' then List.replicate m ' ' else []) ++ [c])
          (c == '\n'), to_int_type c))
    (hn : ∀ buf b k, (D.sputn (emb buf b) (List.replicate k ' ')).1
      = if k = 0 then emb buf b
        else emb (buf ++ (if b then List.replicate m ' ' else []) ++ List.replicate k ' ')
          false)
    (buf : List Char) (b : Bool) (c : Char) :
    overflow D ⟨emb buf b, b, List.replicate w ' '⟩ c
      = (⟨emb (buf ++ (if b && c != '\n' then List.replicate (m + w) ' ' else []) ++ [c])
            (c == '\n'), c == '\n', List.replicate w ' '⟩, to_int_type c) := by
  unfold overflow
  simp only [hn]
  by_cases hcn : c = '\n'
  · subst hcn
    simp [hc]
  · have hb1 : (c != '\n') = true := by simpa using hcn
    have hb2 : (c == '\n') = false := by simpa using hcn
    cases b
    · simp [hc, hb2]
    · by_cases hw : w = 0
      · subst hw
        simp [hc, hb1, hb2]
      · simp only [hb1, hw, Bool.and_self, if_true, if_false, hc, hb2]
        rw [List.replicate_add]
        simp

/-- The put interface of a chain of `k` decorators whose flags agree acts on the base
buffer as a single decorator of width `w 0 + ... + w (k - 1)`. -/
theorem chainBuf_sim (w : Nat → Nat) (k : Nat) :
    (∀ buf b c, (chainBuf StringBuf k).sputc (syncChain w buf b k) c
      = (syncChain w
            (buf ++ (if b && c != '\n' then
              List.replicate ((List.range k).map w).sum ' ' else []) ++ [c])
            (c == '\n') k, to_int_type c))
    ∧ (∀ buf b j, ((chainBuf StringBuf k).sputn (syncChain w buf b k)
          (List.replicate j ' ')).1
      = if j = 0 then syncChain w buf b k
        else syncChain w
          (buf ++ (if b then List.replicate ((List.range k).map w).sum ' ' else [])
            ++ List.replicate j ' ') false k) := by
  induction k with
  | zero =>
    constructor
    · intro buf b c
      simp [chainBuf, syncChain, StringBuf]
    · intro buf b j
      by_cases hj : j = 0
      · subst hj; simp [chainBuf, syncChain, StringBuf]
      · simp [chainBuf, syncChain, StringBuf, hj]
  | succ k ih =>
    have hc : ∀ buf b c, (chainBuf StringBuf (k + 1)).sputc (syncChain w buf b (k + 1)) c
        = (syncChain w
            (buf ++ (if b && c != '\n' then
              List.replicate ((List.range (k + 1)).map w).sum ' ' else []) ++ [c])
            (c == '\n') (k + 1), to_int_type c) := by
      intro buf b c
      rw [sum_widths_succ]
      exact overflow_lift_sim (chainBuf StringBuf k) (fun buf b => syncChain w buf b k)
        _ (w k) ih.1 ih.2 buf b c
    exact ⟨hc, fun buf b j =>
      xsputn_spaces_sim (chainBuf StringBuf (k + 1)).sputc
        (fun buf b => syncChain w buf b (k + 1)) _ hc j buf b⟩

theorem writeChars_chain (w : Nat → Nat) (k : Nat) (s : List Char) :
    ∀ (buf : List Char) (b : Bool),
      writeChars (chainBuf StringBuf k) (syncChain w buf b (k + 1)) s
        = syncChain w
            (writeChars StringBuf
              ⟨buf, b, List.replicate ((List.range (k + 1)).map w).sum ' '⟩ s)._dest
            (writeChars StringBuf
              ⟨buf, b, List.replicate ((List.range (k + 1)).map w).sum ' '⟩
              s)._is_at_start_of_line
            (k + 1) := by
  induction s with
  | nil => intro buf b; rfl
  | cons c cs ih =>
    intro buf b
    have h := (chainBuf_sim w (k + 1)).1 buf b c
    have h2 : overflow (chainBuf StringBuf k) (syncChain w buf b (k + 1)) c
        = (syncChain w
            (buf ++ (if b && c != '\n' then
              List.replicate ((List.range (k + 1)).map w).sum ' ' else []) ++ [c])
            (c == '\n') (k + 1), to_int_type c) := h
    rw [writeChars_cons, h2, writeChars_cons, overflow_StringBuf]
    exact ih _ _

theorem freshChain_eq_syncChain (w : Nat → Nat) (buf : List Char) (k : Nat) :
    freshChain buf w k = syncChain w buf false k := by
  induction k with
  | zero => rfl
  | succ k ih => simp [freshChain, syncChain, ctor, ih]

theorem chainBase_syncChain (w : Nat → Nat) (buf : List Char) (b : Bool) (k : Nat) :
    chainBase k (syncChain w buf b k) = buf := by
  induction k with
  | zero => rfl
  | succ k ih => simpa [chainBase, syncChain] using ih

theorem chainFlags_syncChain (w : Nat → Nat) (buf : List Char) (b : Bool) (k : Nat) :
    chainFlags k (syncChain w buf b k) = List.replicate k b := by
  induction k with
  | zero => rfl
  | succ k ih => simp [chainFlags, syncChain, ih, List.replicate_succ]

/-! ## The claims -/

/-- C1: for every width `n` and every string `s`, writing `s` character by character
through a freshly constructed `IndentingOStream(sink, n)` delivers to the sink exactly the
text obtained by splitting `s` at every newline, keeping the first line, putting `n`
spaces in front of every later line that is not empty, and joining the lines with
newlines again. -/
theorem C1_fresh_stream_delivers_indented_lines (n : Nat) (s buf : List Char) :
    (writeChars StringBuf (ctor buf n) s)._dest = buf ++ indentedText n s :=
  (writeChars_StringBuf_dest n s buf).1

/-- C2: a fresh decorator `B` of width `u2` over a fresh decorator `A` of width `u1`
delivers to the base sink, for every string, what a single fresh decorator of width
`u1 + u2` delivers; for the string `x`, newline, `y` the base sink receives `u2 + u1`
spaces in front of `y`, and `u1` spaces when the string is written through `A` alone. -/
theorem C2_nesting_compounds_additively (u1 u2 : Nat) (s buf : List Char) :
    (writeChars (rdbuf StringBuf) (ctor (ctor buf u1) u2) s)._dest._dest
        = (writeChars StringBuf (ctor buf (u1 + u2)) s)._dest
    ∧ (writeChars (rdbuf StringBuf) (ctor (ctor buf u1) u2) ['x', '\n', 'y'])._dest._dest
        = buf ++ ['x', '\n'] ++ List.replicate (u2 + u1) ' ' ++ ['y']
    ∧ (writeChars StringBuf (ctor buf u1) ['x', '\n', 'y'])._dest
        = buf ++ ['x', '\n'] ++ List.replicate u1 ' ' ++ ['y'] := by
  have key : ∀ t : List Char,
      (writeChars (rdbuf StringBuf) (ctor (ctor buf u1) u2) t)._dest._dest
        = (writeChars StringBuf (ctor buf (u1 + u2)) t)._dest := by
    intro t
    simp only [ctor]
    rw [writeChars_nested]
  have xy : ∀ n : Nat, (writeChars StringBuf (ctor buf n) ['x', '\n', 'y'])._dest
      = buf ++ ['x', '\n'] ++ List.replicate n ' ' ++ ['y'] := by
    intro n
    simp [ctor, writeChars_cons, writeChars_nil, overflow_StringBuf]
  refine ⟨key s, ?_, xy u1⟩
  rw [key, xy, Nat.add_comm]

/-- C3: the worked example of the header: with `os1` of width 2 over the base sink and
`os2` of width 2 over `os1`, both fresh, writing the `begin2` text through `os1` and then
the `begin3` text through `os2` delivers the documented output to the base sink.  In
general, when the decorator `A` (width `u1`) is at the start of a line and `B` (width
`u2`) is fresh over `A`, writing a non-empty `s` that does not start with a newline
through `B` delivers `u1` spaces followed by the text a single fresh decorator of width
`u1 + u2` delivers for `s`. -/
theorem C3_header_example_and_line_start_nesting :
    (∀ buf : List Char,
      (writeChars (rdbuf StringBuf)
          { ctor (ctor buf 2) 2 with
            _dest := writeChars StringBuf (ctor (ctor buf 2) 2)._dest
              "begin2\nhello\nworld\nend2\n".toList }
          "begin3\nhello\nworld\nend3\n".toList)._dest._dest
        = buf ++ ("begin2\n  hello\n  world\n  end2\n"
            ++ "  begin3\n    hello\n    world\n    end3\n").toList)
    ∧ (∀ (u1 u2 : Nat) (s : List Char) (A : IndentingOStream (List Char)),
        A._is_at_start_of_line = true → A._indent = List.replicate u1 ' ' →
        s ≠ [] → s.head? ≠ some '\n' →
        (writeChars (rdbuf StringBuf) (ctor A u2) s)._dest._dest
          = A._dest ++ List.replicate u1 ' '
              ++ (writeChars StringBuf (ctor [] (u1 + u2)) s)._dest) := by
  have general : ∀ (u1 u2 : Nat) (s : List Char) (A : IndentingOStream (List Char)),
      A._is_at_start_of_line = true → A._indent = List.replicate u1 ' ' →
      s ≠ [] → s.head? ≠ some '\n' →
      (writeChars (rdbuf StringBuf) (ctor A u2) s)._dest._dest
        = A._dest ++ List.replicate u1 ' '
            ++ (writeChars StringBuf (ctor [] (u1 + u2)) s)._dest := by
    intro u1 u2 s A hA hind hs hhead
    obtain ⟨buf, b, ind⟩ := A
    simp only at hA hind
    subst hA hind
    cases s with
    | nil => exact absurd rfl hs
    | cons c cs =>
      have hc : c ≠ '\n' := by simpa using hhead
      have hb : (c == '\n') = false := by simpa using hc
      have hb2 : (c != '\n') = true := by simpa using hc
      have step : overflow (rdbuf StringBuf)
          (ctor ⟨buf, true, List.replicate u1 ' '⟩ u2) c
          = (⟨⟨buf ++ List.replicate u1 ' ' ++ [c], false, List.replicate u1 ' '⟩,
              false, List.replicate u2 ' '⟩, to_int_type c) := by
        rw [overflow_rdbuf]
        simp [ctor, overflow_StringBuf, hb, hb2]
      rw [writeChars_cons, step, writeChars_nested, writeChars_cons]
      simp only [ctor, overflow_StringBuf, hb]
      rw [(writeChars_StringBuf_dest _ _ _).1, (writeChars_StringBuf_dest _ cs _).1]
      simp
  refine ⟨?_, general⟩
  intro buf
  have two_writes : ∀ s1 s2 t1 t2 : List Char,
      indentedText 2 s1 = t1 → s1.getLast? = some '\n' → s2 ≠ [] → s2.head? ≠ some '\n' →
      indentedText (2 + 2) s2 = t2 →
      (writeChars (rdbuf StringBuf)
          { ctor (ctor buf 2) 2 with
            _dest := writeChars StringBuf (ctor (ctor buf 2) 2)._dest s1 } s2)._dest._dest
        = buf ++ (t1 ++ List.replicate 2 ' ' ++ t2) := by
    intro s1 s2 t1 t2 e1 hl hs2 hh e2
    have hne : s1 ≠ [] := by
      intro h; subst h; simp at hl
    have hstate : writeChars StringBuf (ctor (ctor buf 2) 2)._dest s1
        = ⟨buf ++ t1, true, List.replicate 2 ' '⟩ := by
      apply ext_fields
      · rw [← e1]; exact (writeChars_StringBuf_dest 2 s1 buf).1
      · rw [writeChars_flag, if_neg hne, hl]; simp
      · rw [writeChars_indent]; rfl
    rw [hstate]
    have h2 := general 2 2 s2 ⟨buf ++ t1, true, List.replicate 2 ' '⟩ rfl rfl hs2 hh
    have e5 : (writeChars StringBuf (ctor [] (2 + 2)) s2)._dest = t2 := by
      have h := (writeChars_StringBuf_dest (2 + 2) s2 []).1
      rw [List.nil_append, e2] at h
      exact h
    rw [e5] at h2
    simpa [ctor, List.append_assoc] using h2
  have e4 : ("begin2\n  hello\n  world\n  end2\n"
      ++ "  begin3\n    hello\n    world\n    end3\n").toList
      = "begin2\n  hello\n  world\n  end2\n".toList ++ List.replicate 2 ' '
        ++ "begin3\n    hello\n    world\n    end3\n".toList := by decide
  rw [e4]
  exact two_writes _ _ _ _ (by decide) (by decide) (by decide) (by decide) (by decide)

/-- Witness of C3: the general part at `u1 = 2`, `u2 = 3`, `s = "a\nb"`, with `A` at the
start of a line after the text `"x\n"`. -/
theorem C3_header_example_and_line_start_nesting_witness :
    (writeChars (rdbuf StringBuf)
        (ctor (⟨['x', '\n'], true, List.replicate 2 ' '⟩ : IndentingOStream (List Char)) 3)
        ['a', '\n', 'b'])._dest._dest
      = ['x', '\n'] ++ List.replicate 2 ' '
          ++ (writeChars StringBuf (ctor [] (2 + 3)) ['a', '\n', 'b'])._dest :=
  C3_header_example_and_line_start_nesting.2 2 3 ['a', '\n', 'b']
    ⟨['x', '\n'], true, List.replicate 2 ' '⟩ rfl rfl (by decide) (by decide)

/-- C4: first-line exemption: for every width `n` and every string `s` without a newline,
writing `s` through a fresh `IndentingOStream` delivers exactly `s`; and the first
character ever written, whatever it is, reaches the sink without indentation. -/
theorem C4_first_line_exemption (n : Nat) (s buf : List Char) (hs : '\n' ∉ s) :
    (writeChars StringBuf (ctor buf n) s)._dest = buf ++ s
    ∧ ∀ c : Char, (overflow StringBuf (ctor buf n) c).1._dest = buf ++ [c] := by
  constructor
  · simp only [ctor]
    rw [writeChars_StringBuf_first_line buf _ s hs]
  · intro c
    simp [ctor, overflow_StringBuf]

/-- Witness of C4 at width 3 and the string `"abc"`. -/
theorem C4_first_line_exemption_witness :
    (writeChars StringBuf (ctor [] 3) ['a', 'b', 'c'])._dest = [] ++ ['a', 'b', 'c']
    ∧ ∀ c : Char, (overflow StringBuf (ctor [] 3) c).1._dest = [] ++ [c] :=
  C4_first_line_exemption 3 ['a', 'b', 'c'] [] (by decide)

/-- C5: for newline-free `a` and `b` with `b` non-empty and every width `n`, writing
`a`, a newline and `b` through a fresh `IndentingOStream` of width `n` delivers `a`, the
newline, `n` spaces and `b`; with `n = 2` the text `"begin\nhello"` gives
`"begin\n  hello"`. -/
theorem C5_one_line_break (n : Nat) (a b buf : List Char) (ha : '\n' ∉ a) (hb : '\n' ∉ b)
    (hne : b ≠ []) :
    (writeChars StringBuf (ctor buf n) (a ++ ['\n'] ++ b))._dest
        = buf ++ (a ++ ['\n'] ++ List.replicate n ' ' ++ b)
    ∧ (writeChars StringBuf (ctor buf 2) "begin\nhello".toList)._dest
        = buf ++ "begin\n  hello".toList := by
  have main : ∀ (m : Nat) (x y : List Char), '\n' ∉ x → '\n' ∉ y → y ≠ [] →
      (writeChars StringBuf (ctor buf m) (x ++ ['\n'] ++ y))._dest
        = buf ++ (x ++ ['\n'] ++ List.replicate m ' ' ++ y) := by
    intro m x y hx hy hy0
    simp only [ctor]
    rw [writeChars_append, writeChars_append, writeChars_StringBuf_first_line buf _ x hx,
      writeChars_StringBuf_newline, writeChars_StringBuf_line _ _ y true hy hy0]
    simp
  refine ⟨main n a b ha hb hne, ?_⟩
  have e : "begin\nhello".toList = "begin".toList ++ ['\n'] ++ "hello".toList := by decide
  have e2 : "begin\n  hello".toList
      = "begin".toList ++ ['\n'] ++ List.replicate 2 ' ' ++ "hello".toList := by decide
  rw [e, e2]
  exact main 2 _ _ (by decide) (by decide) (by decide)

/-- Witness of C5 at width 4 with `a = "ab"` and `b = "c"`. -/
theorem C5_one_line_break_witness :
    (writeChars StringBuf (ctor [] 4) (['a', 'b'] ++ ['\n'] ++ ['c']))._dest
        = [] ++ (['a', 'b'] ++ ['\n'] ++ List.replicate 4 ' ' ++ ['c'])
    ∧ (writeChars StringBuf (ctor [] 2) "begin\nhello".toList)._dest
        = [] ++ "begin\n  hello".toList :=
  C5_one_line_break 4 ['a', 'b'] ['c'] [] (by decide) (by decide) (by decide)

/-- C6: a line break never triggers indentation: in every state and for every
destination, `overflow` of a newline hands the destination exactly one `sputc` of the
newline (an accepting sink receives the single newline character).  Hence for newline-free
`a`, `b` with `b` non-empty, `a`, two newlines and `b` written through a fresh stream give
`a`, two newlines, `n` spaces and `b`; `"a\n\nb"` with width 2 gives `"a\n\n  b"`. -/
theorem C6_line_break_not_indented :
    (∀ (σ : Type) (D : StreamBuf σ) (st : IndentingOStream σ),
        (overflow D st '\n').1._dest = (D.sputc st._dest '\n').1)
    ∧ (∀ (st : IndentingOStream (List Char)),
        (overflow StringBuf st '\n').1._dest = st._dest ++ ['\n'])
    ∧ (∀ (n : Nat) (a b buf : List Char), '\n' ∉ a → '\n' ∉ b → b ≠ [] →
        (writeChars StringBuf (ctor buf n) (a ++ ['\n', '\n'] ++ b))._dest
          = buf ++ (a ++ ['\n', '\n'] ++ List.replicate n ' ' ++ b))
    ∧ (writeChars StringBuf (ctor [] 2) "a\n\nb".toList)._dest = "a\n\n  b".toList := by
  refine ⟨fun σ D st => ?_, fun st => ?_, ?_, by decide⟩
  · simp [overflow]
  · obtain ⟨buf, b, ind⟩ := st
    simp [overflow_StringBuf]
  · intro n a b buf ha hb hne
    have e : a ++ ['\n', '\n'] ++ b = a ++ ['\n'] ++ ['\n'] ++ b := by simp
    simp only [ctor]
    rw [e, writeChars_append, writeChars_append, writeChars_append,
      writeChars_StringBuf_first_line buf _ a ha, writeChars_StringBuf_newline,
      writeChars_StringBuf_newline, writeChars_StringBuf_line _ _ b true hb hne]
    simp

/-- Witness of C6: the blank-line part at width 3 with `a = "p"` and `b = "q"`. -/
theorem C6_line_break_not_indented_witness :
    (writeChars StringBuf (ctor [] 3) (['p'] ++ ['\n', '\n'] ++ ['q']))._dest
      = [] ++ (['p'] ++ ['\n', '\n'] ++ List.replicate 3 ' ' ++ ['q']) :=
  C6_line_break_not_indented.2.2.1 3 ['p'] ['q'] [] (by decide) (by decide) (by decide)

/-- C7: line-start state: a fresh `IndentingOStream` is not at the start of a line; after
every `overflow(ch)`, from every state and over every destination (whatever it returns),
the flag equals `ch == newline`; hence after writing any sequence of characters through a
fresh stream the flag is set exactly when the sequence is non-empty and ends in a
newline. -/
theorem C7_line_start_state :
    (∀ (σ : Type) (dest : σ) (n : Nat), (ctor dest n)._is_at_start_of_line = false)
    ∧ (∀ (σ : Type) (D : StreamBuf σ) (st : IndentingOStream σ) (ch : Char),
        (overflow D st ch).1._is_at_start_of_line = (ch == '\n'))
    ∧ (∀ (σ : Type) (D : StreamBuf σ) (dest : σ) (n : Nat) (s : List Char),
        (writeChars D (ctor dest n) s)._is_at_start_of_line = true
          ↔ s ≠ [] ∧ s.getLast? = some '\n') := by
  refine ⟨fun σ dest n => rfl, fun σ D st ch => rfl, fun σ D dest n s => ?_⟩
  rw [writeChars_flag]
  by_cases h : s = []
  · simp [h, ctor]
  · simp [h]

/-- C8 (evaluation of the code where the claim fails): a fresh decorator of width 2 over a
destination that accepts the first character, refuses the second attempt and accepts from
then on.  After the newline, `overflow` of `x` hands the two-space indent to `sputn`,
which writes none of it, and still returns the code of `x` rather than `EOF`: the sink
has received the newline and `x` without the indent, and no failure is reported.  The same
happens through a second decorator on top: the refusal of the innermost sink does not
reach the caller of the outermost `overflow`. -/
theorem C8_indent_write_failure_not_reported :
    (ScriptedBuf.rdbuf.sputn
        (overflow ScriptedBuf.rdbuf (ctor ⟨[], [true, false]⟩ 2) '\n').1._dest
        (List.replicate 2 ' ')).2 = 0
    ∧ (overflow ScriptedBuf.rdbuf
        (overflow ScriptedBuf.rdbuf (ctor ⟨[], [true, false]⟩ 2) '\n').1 'x').2
        = to_int_type 'x'
    ∧ (overflow ScriptedBuf.rdbuf
        (overflow ScriptedBuf.rdbuf (ctor ⟨[], [true, false]⟩ 2) '\n').1 'x').2 ≠ EOF
    ∧ (overflow ScriptedBuf.rdbuf
        (overflow ScriptedBuf.rdbuf (ctor ⟨[], [true, false]⟩ 2) '\n').1 'x').1._dest.out
        = ['\n', 'x']
    ∧ (overflow (rdbuf ScriptedBuf.rdbuf)
        (overflow (rdbuf ScriptedBuf.rdbuf) (ctor (ctor ⟨[], [true, false]⟩ 2) 1) '\n').1
        'x').2 ≠ EOF
    ∧ (overflow (rdbuf ScriptedBuf.rdbuf)
        (overflow (rdbuf ScriptedBuf.rdbuf) (ctor (ctor ⟨[], [true, false]⟩ 2) 1) '\n').1
        'x').1._dest._dest.out = ['\n', ' ', 'x'] := by
  refine ⟨by decide, by decide, by decide, by decide, by decide, by decide⟩

/-- C9: the decorator adds no error of its own: the result of `overflow(ch)` is the
result of the destination's `sputc(ch)` (issued after the indent, if any, was handed
over).  So over a destination whose `sputc` never fails `overflow` never fails, and
through a chain of any number of decorators over such a destination every single
character and every string is accepted in full. -/
theorem C9_no_new_error_kind {σ : Type} (D : StreamBuf σ) :
    (∀ (st : IndentingOStream σ) (ch : Char),
        (overflow D st ch).2
          = (D.sputc
              (if st._is_at_start_of_line && ch != '\n' then
                (D.sputn st._dest st._indent).1 else st._dest) ch).2)
    ∧ ((∀ d c, (D.sputc d c).2 ≠ EOF) →
        (∀ (st : IndentingOStream σ) (ch : Char), (overflow D st ch).2 ≠ EOF)
        ∧ ∀ (k : Nat) (st : Chain σ (k + 1)),
            (∀ ch : Char, ((chainBuf D (k + 1)).sputc st ch).2 ≠ EOF)
            ∧ ∀ s : List Char, ((chainBuf D (k + 1)).sputn st s).2 = s.length) := by
  refine ⟨fun st ch => rfl, fun hD => ⟨fun st ch => hD _ _, fun k st => ⟨?_, ?_⟩⟩⟩
  · intro ch
    exact chainBuf_sputc_ne_EOF D hD (k + 1) st ch
  · intro s
    exact xsputn_length _ (chainBuf_sputc_ne_EOF D hD (k + 1)) st s

/-- Witness of C9: two decorators (widths 2 and 3) over the accepting `StringBuf` take the
whole of `"a\nb"`. -/
theorem C9_no_new_error_kind_witness :
    ((chainBuf StringBuf (1 + 1)).sputn (ctor (ctor ([] : List Char) 2) 3 : Chain _ (1 + 1))
        ['a', '\n', 'b']).2 = ['a', '\n', 'b'].length :=
  (((C9_no_new_error_kind StringBuf).2 (fun _ c => to_int_type_ne_EOF c)).2 1
    (ctor (ctor ([] : List Char) 2) 3)).2 ['a', '\n', 'b']

/-- C10: for every class derived from `Describable` or from `NonConstDescribable`,
whatever its `Describe`, and every stream, `os << obj` is the call
`obj.Describe(os, options)` with `verbose = false` and `use_html = false`, and the stream
it returns is the stream that call has written to. -/
theorem C10_insertion_is_describe_non_verbose :
    (∀ (Obj σ : Type) (cls : Describable Obj σ) (os : σ) (obj : Obj),
        cls.operator_shl os obj
          = cls.Describe obj os { verbose := false, use_html := false })
    ∧ (∀ (Obj σ : Type) (cls : NonConstDescribable Obj σ) (os : σ) (obj : Obj),
        cls.operator_shl os obj
          = cls.Describe obj os { verbose := false, use_html := false }) :=
  ⟨fun _ _ _ _ _ => rfl, fun _ _ _ _ _ => rfl⟩

/-- C11 (counterexample): the default `Describe` does not always append exactly the class
name, nor the same text at a second call: `os << class_name_str(*this)` is a formatted
insertion.  On a good stream over an accepting buffer with field width 8 and fill
character `.`, an object whose class name is `Plain` is described as `...Plain`; the
insertion resets the width, so a second call appends `Plain`. -/
theorem C11_class_name_padded_to_width :
    (¬ ∀ (os : OStream (List Char)) (name : List Char) (o : DescribeOptions),
        ((Describable.base (OStream.insert StringBuf) (fun _ : Unit => name)).Describe
            () os o).rdbuf = os.rdbuf ++ name)
    ∧ ((Describable.base (OStream.insert StringBuf) (fun _ : Unit => "Plain".toList)).Describe
          () ⟨[], true, 8, '.', false⟩ DescribeOptions.ctor).rdbuf = "...Plain".toList
    ∧ ((Describable.base (OStream.insert StringBuf) (fun _ : Unit => "Plain".toList)).Describe
          ()
          ((Describable.base (OStream.insert StringBuf)
            (fun _ : Unit => "Plain".toList)).Describe
            () ⟨[], true, 8, '.', false⟩ DescribeOptions.ctor)
          DescribeOptions.ctor).rdbuf = "...Plain".toList ++ "Plain".toList := by
  refine ⟨fun h => ?_, by decide, by decide⟩
  have h1 := h ⟨[], true, 8, '.', false⟩ "Plain".toList DescribeOptions.ctor
  revert h1
  decide

/-- C11 (amended): the default `Describe` of `Describable` and of `NonConstDescribable`
ignores its options (any two option values give the same result, and the non-const
version leaves the object as it is).  On a good stream whose field width does not exceed
the length of the class name, it hands exactly the class name to the stream buffer; over
an accepting buffer the text appended is then exactly the class name, and exactly the
class name again at a second call. -/
theorem C11_default_describe_inserts_class_name :
    (∀ (Obj σ : Type) (insert : σ → List Char → σ) (class_name_str : Obj → List Char)
        (obj : Obj) (os : σ) (o1 o2 : DescribeOptions),
        (Describable.base insert class_name_str).Describe obj os o1
            = (Describable.base insert class_name_str).Describe obj os o2
        ∧ (NonConstDescribable.base insert class_name_str).Describe obj os o1
            = (NonConstDescribable.base insert class_name_str).Describe obj os o2
        ∧ ((NonConstDescribable.base insert class_name_str).Describe obj os o1).1 = obj)
    ∧ (∀ (Obj τ : Type) (D : StreamBuf τ) (class_name_str : Obj → List Char) (obj : Obj)
        (os : OStream τ) (o : DescribeOptions),
        os.good = true → os.width ≤ (class_name_str obj).length →
        ((Describable.base (OStream.insert D) class_name_str).Describe obj os o).rdbuf
            = (D.sputn os.rdbuf (class_name_str obj)).1
        ∧ ((NonConstDescribable.base (OStream.insert D) class_name_str).Describe
            obj os o).2.rdbuf = (D.sputn os.rdbuf (class_name_str obj)).1)
    ∧ (∀ (Obj : Type) (class_name_str : Obj → List Char) (obj : Obj)
        (os : OStream (List Char)) (o : DescribeOptions),
        os.good = true → os.width ≤ (class_name_str obj).length →
        ((Describable.base (OStream.insert StringBuf) class_name_str).Describe
            obj os o).rdbuf = os.rdbuf ++ class_name_str obj
        ∧ ((Describable.base (OStream.insert StringBuf) class_name_str).Describe obj
            ((Describable.base (OStream.insert StringBuf) class_name_str).Describe
              obj os o) o).rdbuf
            = (os.rdbuf ++ class_name_str obj) ++ class_name_str obj
        ∧ ((NonConstDescribable.base (OStream.insert StringBuf) class_name_str).Describe
            ((NonConstDescribable.base (OStream.insert StringBuf) class_name_str).Describe
              obj os o).1
            ((NonConstDescribable.base (OStream.insert StringBuf) class_name_str).Describe
              obj os o).2 o).2.rdbuf
            = (os.rdbuf ++ class_name_str obj) ++ class_name_str obj) := by
  refine ⟨fun _ _ _ _ _ _ _ _ => ⟨rfl, rfl, rfl⟩, ?_, ?_⟩
  · intro Obj τ D cns obj os o hg hw
    have hpad : os.width - (cns obj).length = 0 := Nat.sub_eq_zero_of_le hw
    simp [Describable.base, NonConstDescribable.base, OStream.insert, hg, hpad]
  · intro Obj cns obj os o hg hw
    have hpad : os.width - (cns obj).length = 0 := Nat.sub_eq_zero_of_le hw
    simp [Describable.base, NonConstDescribable.base, OStream.insert, hg, hpad, StringBuf]

/-- Witness of C11 (amended): a good stream over an empty accepting buffer with field
width 0, and an object whose class name is `Plain`. -/
theorem C11_default_describe_inserts_class_name_witness :
    ((Describable.base (OStream.insert StringBuf) (fun _ : Unit => "Plain".toList)).Describe
        () ⟨[], true, 0, ' ', false⟩ DescribeOptions.ctor).rdbuf
      = (⟨[], true, 0, ' ', false⟩ : OStream (List Char)).rdbuf ++ "Plain".toList :=
  (C11_default_describe_inserts_class_name.2.2 Unit (fun _ => "Plain".toList) ()
    ⟨[], true, 0, ' ', false⟩ DescribeOptions.ctor rfl (by decide)).1

/-- C12: a default-constructed `DescribeOptions` has `verbose = true` and
`use_html = false`. -/
theorem C12_default_options :
    DescribeOptions.ctor.verbose = true ∧ DescribeOptions.ctor.use_html = false :=
  ⟨rfl, rfl⟩

/-- C13 (counterexample): it is not the case that every newline of the delivered text is
followed by `n` spaces: with width 2 the text `"a\n\nb"` is delivered as `"a\n\n  b"`,
whose first newline (position 1) is followed by a newline. -/
theorem C13_not_every_newline_followed_by_indent :
    ¬ ∀ (n : Nat) (s : List Char) (i : Nat),
        (writeChars StringBuf (ctor [] n) s)._dest[i]? = some '\n' →
        ((writeChars StringBuf (ctor [] n) s)._dest.drop (i + 1)).take n
          = List.replicate n ' ' := by
  intro h
  have h1 := h 2 ['a', '\n', '\n', 'b'] 1 (by decide)
  revert h1
  decide

/-- C13 (amended): for every width `n` and string `s` written through a fresh
`IndentingOStream`, every newline of the delivered text that is followed by a character
other than a newline is immediately followed by `n` spaces. -/
theorem C13_newline_before_text_followed_by_indent (n : Nat) (s : List Char) (i : Nat)
    (hi : (writeChars StringBuf (ctor [] n) s)._dest[i]? = some '\n')
    (hnext : ∃ c, (writeChars StringBuf (ctor [] n) s)._dest[i + 1]? = some c ∧ c ≠ '\n') :
    ((writeChars StringBuf (ctor [] n) s)._dest.drop (i + 1)).take n
      = List.replicate n ' ' := by
  rw [delivered_fresh] at hi hnext ⊢
  exact newlinesIndented_index n _ (newlinesIndented_delivered n s false) i hi hnext

/-- Witness of C13 (amended): width 2, the text `"a\nb"`, the newline at position 1. -/
theorem C13_newline_before_text_followed_by_indent_witness :
    ((writeChars StringBuf (ctor [] 2) ['a', '\n', 'b'])._dest.drop (1 + 1)).take 2
      = List.replicate 2 ' ' :=
  C13_newline_before_text_followed_by_indent 2 ['a', '\n', 'b'] 1 (by decide)
    ⟨' ', by decide, by decide⟩

/-- C14: depth-`k` compounding: for `k + 1` fresh decorators chained over the base sink,
`D(i+1)` of width `w i`, writing `s` through the outermost one delivers to the base sink
what a single fresh decorator of width `w 0 + ... + w k` delivers, and afterwards the
line-start flags of all `k + 1` decorators are equal (to the flag of that single
decorator). -/
theorem C14_depth_k_compounding (w : Nat → Nat) (k : Nat) (s buf : List Char) :
    chainBase (k + 1) (writeChars (chainBuf StringBuf k) (freshChain buf w (k + 1)) s)
        = (writeChars StringBuf (ctor buf ((List.range (k + 1)).map w).sum) s)._dest
    ∧ chainFlags (k + 1) (writeChars (chainBuf StringBuf k) (freshChain buf w (k + 1)) s)
        = List.replicate (k + 1)
            (writeChars StringBuf
              (ctor buf ((List.range (k + 1)).map w).sum) s)._is_at_start_of_line := by
  rw [freshChain_eq_syncChain, writeChars_chain, chainBase_syncChain, chainFlags_syncChain]
  exact ⟨rfl, rfl⟩

/-- C15: writes compose: over every destination and from every state, writing `s1` and
then `s2` leaves the decorator and its sink as one write of `s1 ++ s2` does (also through
`sputn` on an accepting buffer); and the text delivered to an accepting sink contains the
characters of the input in their order, with nothing but spaces added. -/
theorem C15_writes_compose :
    (∀ (σ : Type) (D : StreamBuf σ) (st : IndentingOStream σ) (s1 s2 : List Char),
        writeChars D (writeChars D st s1) s2 = writeChars D st (s1 ++ s2))
    ∧ (∀ (st : IndentingOStream (List Char)) (s1 s2 : List Char),
        ((rdbuf StringBuf).sputn ((rdbuf StringBuf).sputn st s1).1 s2).1
          = ((rdbuf StringBuf).sputn st (s1 ++ s2)).1)
    ∧ (∀ (n : Nat) (b : Bool) (buf s : List Char),
        ∃ out, (writeChars StringBuf ⟨buf, b, List.replicate n ' '⟩ s)._dest = buf ++ out
          ∧ s.Sublist out
          ∧ out.filter (fun c => c != ' ') = s.filter (fun c => c != ' ')) := by
  refine ⟨fun σ D st s1 s2 => (writeChars_append D st s1 s2).symm, fun st s1 s2 => ?_,
    fun n b buf s => ⟨delivered (List.replicate n ' ') b s,
      writeChars_StringBuf_onto _ s buf b, sublist_delivered _ s b,
      delivered_filter_spaces n s b⟩⟩
  show (xsputn (overflow StringBuf) (xsputn (overflow StringBuf) st s1).1 s2).1
    = (xsputn (overflow StringBuf) st (s1 ++ s2)).1
  simp only [xsputn_StringBuf, writeChars_append]

/-- C16: indentation loses no information: for every width `n` two inputs with the same
delivered text are equal, and the input is recovered from the delivered text by deleting
the `n` characters that follow each newline which is not itself followed by a newline or
by the end of the text. -/
theorem C16_indentation_injective (n : Nat) :
    (∀ s1 s2 : List Char,
        (writeChars StringBuf (ctor [] n) s1)._dest
          = (writeChars StringBuf (ctor [] n) s2)._dest → s1 = s2)
    ∧ ∀ s : List Char, unindent n (writeChars StringBuf (ctor [] n) s)._dest = s := by
  have inv : ∀ s : List Char, unindent n (writeChars StringBuf (ctor [] n) s)._dest = s := by
    intro s
    rw [delivered_fresh]
    exact (unindentAux_delivered n s).1
  refine ⟨fun s1 s2 h => ?_, inv⟩
  rw [← inv s1, ← inv s2, h]

/-- Witness of C16 at width 2: the two inputs are `"a\nb"`, written in two ways. -/
theorem C16_indentation_injective_witness :
    ['a', '\n', 'b'] = ['a', '\n'] ++ ['b'] :=
  (C16_indentation_injective 2).1 ['a', '\n', 'b'] (['a', '\n'] ++ ['b']) (by decide)

/-- C17: exact output size: the text a fresh decorator of width `n` delivers for `s` has
length `|s| + n * c`, with `c` the number of positions `i` where `s[i]` is a newline,
`i + 1 < |s|` and `s[i+1]` is not a newline; it has as many newlines as `s`; and for
width 0 it is `s`. -/
theorem C17_exact_output_size (n : Nat) (s : List Char) :
    (writeChars StringBuf (ctor [] n) s)._dest.length = s.length + n * indentPoints s
    ∧ (writeChars StringBuf (ctor [] n) s)._dest.count '\n' = s.count '\n'
    ∧ (writeChars StringBuf (ctor [] 0) s)._dest = s := by
  refine ⟨?_, ?_, ?_⟩
  · rw [delivered_fresh, delivered_length]
    simp
  · rw [delivered_fresh]
    exact delivered_count_newline _ (by simp [List.mem_replicate]) s false
  · exact delivered_no_indent s false

end brpc
